import Mathlib

/-!
Shallow embedding of the OpenBSD moncontrol profiling pipeline:

* the capture finalizer `_mcleanup` of `lib/libc/gmon/gmon.c`, which
  serializes the profiling arena as a sequence of labeled text records
  (`gmonhdr`, `kcount`, `rawarc`, `footer`) over the `utrace(2)` channel;
* the trace deserializer `gmon_append` / `ktrace_extract` of
  `usr.bin/gprof/extract.c`, a finite-state machine that rebuilds the
  on-disk `gmon.out` contents from those records.

Records are `List Char`.  Characters are compared through their ASCII
codes (`Char.toNat`), exactly as C compares `char` values.  Machine
integers are `Nat` with an explicit `% 2 ^ w` wherever the C code
truncates to a fixed width.  The unbounded C loops (the arc-chain walk)
are given explicit fuel; the theorems that use them carry the arc-store
invariant (links strictly decrease) that makes the fuel irrelevant.
-/

/-- ASCII whitespace, as C `isspace(3)` classifies the bytes that can occur
in a trace record (space, tab, newline, vertical tab, form feed, carriage
return). -/
def isSpaceC (c : Char) : Bool :=
  c.toNat = 32 || c.toNat = 9 || c.toNat = 10 || c.toNat = 11 || c.toNat = 12 || c.toNat = 13

/-- Hexadecimal digit as accepted by `strtoul(3)`-style conversion
(`0`-`9`, `a`-`f`, `A`-`F`), by ASCII code. -/
def isHexDigitChar (c : Char) : Bool :=
  (48 ≤ c.toNat && c.toNat ≤ 57) || (97 ≤ c.toNat && c.toNat ≤ 102) ||
    (65 ≤ c.toNat && c.toNat ≤ 70)

/-- Numeric value of a hexadecimal digit (correct conversion, used to state
what the wire fields mean; the deserializer's own — different — arithmetic
is `decodeSampleLoop` below). -/
def hexVal (c : Char) : Nat :=
  if c.toNat ≤ 57 then c.toNat - 48
  else if c.toNat ≤ 70 then c.toNat - 55
  else c.toNat - 87

/-- Value of a string of hexadecimal digits, most significant first. -/
def hexListVal (l : List Char) : Nat :=
  l.foldl (fun a c => a * 16 + hexVal c) 0

/-- Lowercase hexadecimal digit for `n < 16`, as `printf %x` produces. -/
def hexDigitChar (n : Nat) : Char :=
  if n < 10 then Char.ofNat (48 + n) else Char.ofNat (87 + n)

/-- Hexadecimal digits of `n`, most significant first, no leading zeros;
`[]` for `n = 0`.  `fuel` bounds the recursion; `fuel ≥ number of digits`
makes it exact. -/
def toHexCore : Nat → Nat → List Char
  | 0, _ => []
  | f + 1, n => if n = 0 then [] else toHexCore f (n / 16) ++ [hexDigitChar (n % 16)]

/-- Rendering of `n` by `printf("%lx")` / `printf("%x")`: lowercase
hexadecimal, no padding, `"0"` for zero. -/
def toHex (n : Nat) : List Char :=
  if n = 0 then ['0'] else toHexCore n n

/-- Rendering of a 16-bit sample by `snprintf("%04hx")`: the value modulo
`2 ^ 16`, zero padded on the left to four digits. -/
def toHex4 (v : Nat) : List Char :=
  List.replicate (4 - (toHex (v % 65536)).length) '0' ++ toHex (v % 65536)

/-- Drop leading whitespace, as the `%x` conversions of `sscanf(3)` do. -/
def dropWS : List Char → List Char
  | [] => []
  | c :: r => if isSpaceC c then dropWS r else c :: r

/-- Longest leading run of hexadecimal digits, and the rest. -/
def spanHex : List Char → List Char × List Char
  | [] => ([], [])
  | c :: r =>
    if isHexDigitChar c then
      let s := spanHex r
      (c :: s.1, s.2)
    else ([], c :: r)

/-- Optional sign of a `strtoul(3)`-style conversion: consume a leading
`-` or `+`, reporting whether the value is to be negated. -/
def scanSign : List Char → Bool × List Char
  | [] => (false, [])
  | c :: r => if c = '-' then (true, r) else if c = '+' then (false, r) else (false, c :: r)

/-- Optional `0x` / `0X` prefix of a `strtoul(3)`-style hexadecimal
conversion, consumed only when a digit follows it. -/
def scanPre : List Char → List Char
  | c0 :: c1 :: c2 :: r =>
    if c0 = '0' && (c1 = 'x' || c1 = 'X') && isHexDigitChar c2 then c2 :: r
    else c0 :: c1 :: c2 :: r
  | l => l

/-- One `%lx` / `%x` conversion of `sscanf(3)`: skip whitespace, optional
sign, optional `0x` prefix, then at least one hexadecimal digit; the value
is reduced modulo `m = 2 ^ width` of the destination integer (a negated
value wraps as unsigned arithmetic does).  `none` is a matching
failure. -/
def scanHexNat (m : Nat) (l : List Char) : Option (Nat × List Char) :=
  let sg := scanSign (dropWS l)
  match spanHex (scanPre sg.2) with
  | ([], _) => none
  | (ds, r) =>
    some ((if sg.1 then (m - hexListVal ds % m) % m else hexListVal ds % m), r)

/-- Literal characters of an `sscanf` format: each must match the input
exactly; `none` is a matching failure. -/
def matchChars : List Char → List Char → Option (List Char)
  | [], l => some l
  | _ :: _, [] => none
  | p :: ps, c :: cs => if c = p then matchChars ps cs else none

/-- Literal tag of the header record (`"gmonhdr"`). -/
def hdrTag : List Char := "gmonhdr".data

/-- Literal tag of a histogram record (`"kcount"`). -/
def kcountTag : List Char := "kcount".data

/-- Literal tag of an arc record (`"rawarc"`). -/
def rawarcTag : List Char := "rawarc".data

/-- The footer record (`"footer"`, no payload). -/
def footerRecord : List Char := "footer".data

/-- Space-separated lowercase hexadecimal fields, as a `snprintf` format
`" %lx"` repeated produces them. -/
def hexFields : List Nat → List Char
  | [] => []
  | n :: ns => ' ' :: (toHex n ++ hexFields ns)

/-- The five-conversion parse `sscanf(trace, "gmonhdr %lx %lx %x %x %x")`
of `gmon_append`'s HEADER state: `some` exactly when all five conversions
succeed (`count == 5` in the C code).  `lpc`/`hpc` are `u_long` (64-bit),
the last three fields are 32-bit. -/
def scanGmonhdr (l : List Char) : Option (Nat × Nat × Nat × Nat × Nat) :=
  match matchChars hdrTag l with
  | none => none
  | some l1 =>
    match scanHexNat (2 ^ 64) l1 with
    | none => none
    | some (a, l2) =>
      match scanHexNat (2 ^ 64) l2 with
      | none => none
      | some (b, l3) =>
        match scanHexNat (2 ^ 32) l3 with
        | none => none
        | some (v, l4) =>
          match scanHexNat (2 ^ 32) l4 with
          | none => none
          | some (d, l5) =>
            match scanHexNat (2 ^ 32) l5 with
            | none => none
            | some (e, _) => some (a, b, v, d, e)

/-- The three-conversion parse `sscanf(trace, "rawarc %lx %lx %lx")` of
`gmon_append`'s RAWARC state. -/
def scanRawarc (l : List Char) : Option (Nat × Nat × Nat) :=
  match matchChars rawarcTag l with
  | none => none
  | some l1 =>
    match scanHexNat (2 ^ 64) l1 with
    | none => none
    | some (a, l2) =>
      match scanHexNat (2 ^ 64) l2 with
      | none => none
      | some (b, l3) =>
        match scanHexNat (2 ^ 64) l3 with
        | none => none
        | some (c, _) => some (a, b, c)

/-- Tokens produced by repeated `strsep(&trace, " ")`: split at every
single space, keeping empty tokens; a string with no space yields one
token, so the result is never `[]`. -/
def splitSp : List Char → List (List Char)
  | [] => [[]]
  | c :: r =>
    if c = ' ' then [] :: splitSp r
    else
      match splitSp r with
      | [] => [[c]]
      | t :: ts => (c :: t) :: ts

/-- Deserialization step of `enum gmon_state` in `extract.c`. -/
inductive GState
  | HEADER
  | KCOUNT
  | RAWARC
  | FOOTER
  | ERROR
deriving DecidableEq

/-- Deserialization cursor `struct gmon_de`. -/
structure GmonDe where
  sample_count : Nat
  sample_total : Nat
  state : GState
deriving DecidableEq

/-- One item written to the output file by `gmon_append`: the header
struct, one 16-bit histogram sample, or one `struct rawarc`. -/
inductive OutItem
  | header (lpc hpc ncnt version profrate : Nat)
  | sample (v : Nat)
  | arc (frompc selfpc count : Nat)
deriving DecidableEq

/-- The per-character decode loop of `gmon_append`'s KCOUNT state:

    for (; *p != '\0'; p++) {
        if (*p < '0' || 'f' < *p) goto error;
        sample = sample * 16 + (*p - '0');
    }

`'0'` is 48 and `'f'` is 102; `sample` is a `uint16_t`, so each store
truncates modulo `2 ^ 16`.  `none` models the `goto error`. -/
def decodeSampleLoop : Nat → List Char → Option Nat
  | s, [] => some s
  | s, c :: r =>
    if c.toNat < 48 ∨ 102 < c.toNat then none
    else decodeSampleLoop ((s * 16 + (c.toNat - 48)) % 65536) r

/-- Decode of one sample field, starting from `sample = 0`. -/
def decodeSample (p : List Char) : Option Nat :=
  decodeSampleLoop 0 p

/-- The `while ((p = strsep(&trace, " ")) != NULL)` loop of the KCOUNT
state: for each field check length 4, then the sample-count budget, then
decode; append the decoded sample and advance the count.  Returns the
state (`ERROR`, or `KCOUNT` when the whole record was consumed), the new
sample count, and the samples written. -/
def kcountFieldsLoop (total : Nat) : Nat → List OutItem → List (List Char) →
    GState × Nat × List OutItem
  | count, acc, [] => (GState.KCOUNT, count, acc)
  | count, acc, p :: rest =>
    if p.length ≠ 4 then (GState.ERROR, count, acc)
    else if count = total then (GState.ERROR, count, acc)
    else
      match decodeSample p with
      | none => (GState.ERROR, count, acc)
      | some v => kcountFieldsLoop total (count + 1) (acc ++ [OutItem.sample v]) rest

/-- Modelled from the spec: byte size of the on-disk header struct
(`struct gmonhdr` of `sys/gmon.h`, which is not under `src/`): two
`u_long` plus six `int` on LP64, i.e. 40 bytes (`header_size` in the
spec's on-disk layout). -/
def gmonhdrSize : Nat := 40

/-- Value of `header.ncnt` in the comparisons of `gmon_append`: the field
is an `int` filled by a `%x` conversion (bits `v < 2 ^ 32`), then compared
against `sizeof header` (a `size_t`), which converts the `int` to a 64-bit
unsigned value: bit patterns `≥ 2 ^ 31` are negative and sign-extend. -/
def ncntEff (v : Nat) : Nat :=
  if v < 2 ^ 31 then v else 2 ^ 64 - 2 ^ 32 + v

/-- Modelled from the spec: `GMONVERSION` (`0x51879`), the format_version
constant of `sys/gmon.h`, which is not under `src/`. -/
def GMONVERSION : Nat := 0x51879

/-- One step of the deserializer `gmon_append(fp, path, de, ktrace_path,
trace)`: consumes one record, returns the updated cursor and the items
written to the output file (writes are modelled as always succeeding).
The FOOTER/ERROR states `abort()` in C; `ktrace_extract` never calls
`gmon_append` in those states, and the embedding leaves them inert. -/
def gmon_append (de : GmonDe) (tr : List Char) : GmonDe × List OutItem :=
  match de.state with
  | GState.HEADER =>
    match scanGmonhdr tr with
    | none => ({ de with state := GState.ERROR }, [])
    | some (lpc, hpc, ncnt, ver, rate) =>
      if ncntEff ncnt < gmonhdrSize then ({ de with state := GState.ERROR }, [])
      else
        ({ sample_count := 0, sample_total := (ncntEff ncnt - gmonhdrSize) / 2,
           state := GState.KCOUNT }, [OutItem.header lpc hpc ncnt ver rate])
  | GState.KCOUNT =>
    match splitSp tr with
    | [] => ({ de with state := GState.ERROR }, [])
    | tag :: fields =>
      if tag = kcountTag then
        let r := kcountFieldsLoop de.sample_total de.sample_count [] fields
        let cnt := r.2.1
        let items := r.2.2
        if r.1 = GState.ERROR then
          ({ de with sample_count := cnt, state := GState.ERROR }, items)
        else
          let st2 := if cnt = de.sample_total then GState.RAWARC else GState.KCOUNT
          ({ de with sample_count := cnt, state := st2 }, items)
      else ({ de with state := GState.ERROR }, [])
  | GState.RAWARC =>
    if tr = footerRecord then ({ de with state := GState.FOOTER }, [])
    else
      match scanRawarc tr with
      | none => ({ de with state := GState.ERROR }, [])
      | some (fp, sp, ct) => (de, [OutItem.arc fp sp ct])
  | _ => (de, [])

/-- The record loop of `ktrace_extract`: feed records (already filtered to
the gmon label and one pid by the surrounding loop) to `gmon_append`,
stopping early once the cursor reaches FOOTER or ERROR. -/
def extractLoop : GmonDe → List OutItem → List (List Char) → GmonDe × List OutItem
  | de, out, [] => (de, out)
  | de, out, tr :: rest =>
    let r := gmon_append de tr
    if r.1.state = GState.FOOTER ∨ r.1.state = GState.ERROR then (r.1, out ++ r.2)
    else extractLoop r.1 (out ++ r.2) rest

/-- Initial cursor `struct gmon_de de = { .state = HEADER }`. -/
def initDe : GmonDe := ⟨0, 0, GState.HEADER⟩

/-- Cursor left by `ktrace_extract`'s record loop on a given stream. -/
def finalDe (records : List (List Char)) : GmonDe :=
  (extractLoop initDe [] records).1

/-- Outcome of `ktrace_extract` (the file-system plumbing aside):
`malformed` for the `de.state == ERROR` exit, `noRecords` for the
`de.state == HEADER` exit ("no moncontrol record set found"),
`incomplete` for the `de.state != FOOTER` exit ("found incomplete
moncontrol record set"), `success` with the reconstructed items
otherwise. -/
inductive ExtractResult
  | success (out : List OutItem)
  | malformed
  | noRecords
  | incomplete
deriving DecidableEq

/-- The post-loop classification of `ktrace_extract`, in the order the C
code performs its checks. -/
def ktrace_extract (records : List (List Char)) : ExtractResult :=
  if (finalDe records).state = GState.ERROR then ExtractResult.malformed
  else if (finalDe records).state = GState.HEADER then ExtractResult.noRecords
  else if ¬ (finalDe records).state = GState.FOOTER then ExtractResult.incomplete
  else ExtractResult.success (extractLoop initDe [] records).2

/-- Arc pool entry `struct tostruct` (`selfpc`, `count`, `link`). -/
structure ToStruct where
  selfpc : Nat
  count : Nat
  link : Nat
deriving DecidableEq

/-- Default `tostruct` used for out-of-range reads. -/
def dTo : ToStruct := ⟨0, 0, 0⟩

/-- The capture-side session state `struct gmonparam`, restricted to the
fields `_mcleanup` reads.  `kcount` and `froms` hold `u_short` values;
sizes are in bytes as in the C struct. -/
structure GmonParam where
  lowpc : Nat
  highpc : Nat
  textsize : Nat
  kcountsize : Nat
  hashfraction : Nat
  fromssize : Nat
  kcount : List Nat
  froms : List Nat
  tos : List ToStruct

/-- Modelled from the spec: `KTR_USER_MAXLEN` (2048), the trace channel's
maximum record length, from `sys/ktrace.h`, which is not under `src/`. -/
def KTR_USER_MAXLEN : Nat := 2048

/-- `sizeof ubuf` in `_mcleanup`: `KTR_USER_MAXLEN + 1` (room for the
NUL). -/
def ubufSize : Nat := KTR_USER_MAXLEN + 1

/-- `sample_limit = (sizeof(ubuf) - 6) / 5`: how many ` %04hx` sample
fields fit in one `kcount` record after the 6-byte tag. -/
def sampleLimit : Nat := (ubufSize - 6) / 5

/-- Chunks of at most `k` elements, in order, as the outer `for (i = 0;
i < sample_total; i = j)` loop of `_mcleanup` walks the sample array
(`limit = min(sample_total, i + sample_limit)` per record).  `fuel ≥
length` makes the fuel irrelevant. -/
def chunkListF (k : Nat) : Nat → List Nat → List (List Nat)
  | _, [] => []
  | 0, l => [l]
  | f + 1, l => l.take k :: chunkListF k f (l.drop k)

/-- One `kcount` record: the tag followed by one ` %04hx` field per
sample of the chunk. -/
def kcountRecord (chunk : List Nat) : List Char :=
  kcountTag ++ (chunk.map (fun s => ' ' :: toHex4 s)).flatten

/-- The full `kcount` record sequence for a sample array. -/
def kcountTraces (samples : List Nat) : List (List Char) :=
  (chunkListF sampleLimit samples.length samples).map kcountRecord

/-- The sample array as `_mcleanup` reads it: `sample_total =
kcountsize / sizeof(u_short)` entries `p->kcount[j]`. -/
def sampleSeq (p : GmonParam) : List Nat :=
  (List.range (p.kcountsize / 2)).map (fun j => p.kcount.getD j 0)

/-- The arc-chain walk `for (toindex = froms[fromindex]; toindex != 0;
toindex = tos[toindex].link)`, with fuel standing in for the C loop's
reliance on the recorder's strictly-decreasing-link invariant. -/
def chainArcs (tos : List ToStruct) : Nat → Nat → List Nat
  | _, 0 => []
  | 0, _ => []
  | f + 1, i => i :: chainArcs tos f ((tos.getD i dTo).link)

/-- One `rawarc` record, `snprintf(ubuf, …, "rawarc %lx %lx %lx", …)`;
the three fields are `u_long`. -/
def rawarcRecord (a b c : Nat) : List Char :=
  rawarcTag ++ hexFields [a % 2 ^ 64, b % 2 ^ 64, c % 2 ^ 64]

/-- The arc section of `_mcleanup`: for each from-slot in ascending index
order, skip empty slots (`froms[fromindex] == 0`), otherwise walk the
chain from the stored head and emit one record per arc, with
`frompc = lowpc + fromindex * hashfraction * sizeof(*froms)` and
`sizeof(*froms) = 2`. -/
def arcTraces (p : GmonParam) : List (List Char) :=
  ((List.range (p.fromssize / 2)).map (fun fi =>
    if p.froms.getD fi 0 = 0 then []
    else
      (chainArcs p.tos (p.tos.length + 1) (p.froms.getD fi 0)).map (fun ti =>
        rawarcRecord (p.lowpc + fi * p.hashfraction * 2)
          ((p.tos.getD ti dTo).selfpc) ((p.tos.getD ti dTo).count)))).flatten

/-- The header record `snprintf(ubuf, …, "gmonhdr %lx %lx %x %x %x",
hdr->lpc, hdr->hpc, hdr->ncnt, hdr->version, hdr->profrate)` with
`ncnt = kcountsize + sizeof(gmonhdr)` stored in an `int` and printed as
unsigned. -/
def headerRecord (p : GmonParam) (profrate : Nat) : List Char :=
  hdrTag ++ hexFields [p.lowpc % 2 ^ 64, p.highpc % 2 ^ 64,
    (p.kcountsize + gmonhdrSize) % 2 ^ 32, GMONVERSION, profrate % 2 ^ 32]

/-- A header record of the wire form with given field values (used to
state what the deserializer accepts). -/
def hdrWire (a b v d e : Nat) : List Char :=
  hdrTag ++ hexFields [a, b, v, d, e]

/-- The full record sequence `_mcleanup` emits when every `utrace(2)`
write succeeds: one header record, the `kcount` records, the `rawarc`
records, one footer record. -/
def mcleanupRecords (p : GmonParam) (profrate : Nat) : List (List Char) :=
  headerRecord p profrate :: (kcountTraces (sampleSeq p) ++ (arcTraces p ++ [footerRecord]))

/-- `ROUNDDOWN(x, y)` of the C sources: `x / y * y`. -/
def ROUNDDOWN (x y : Nat) : Nat := x / y * y

/-- `ROUNDUP(x, y)` of the C sources: `(x + y - 1) / y * y`. -/
def ROUNDUP (x y : Nat) : Nat := (x + y - 1) / y * y

/-- Modelled from the spec: `HISTFRACTION` (the histogram fraction, 2 on
OpenBSD), from `sys/gmon.h`, which is not under `src/`. -/
def HISTFRACTION : Nat := 2

/-- Modelled from the spec: `HASHFRACTION` (the from-table hash fraction,
2 on OpenBSD), from `sys/gmon.h`, which is not under `src/`. -/
def HASHFRACTION : Nat := 2

/-- A session produced by a successful `monstartup(lowpc, highpc)` with
`lowpc < highpc`, as later profiled and finalized: the size equations of
`monstartup` (gmon.c lines 72-83, with `sizeof(HISTCOUNTER) = 2` as the
code asserts), arrays of the corresponding lengths, and the arc-recorder
invariant — modelled from the spec, since `mcount.c` is not under `src/`
— that a chain link always points to an earlier pool slot (new arcs are
pushed at the chain head, so links strictly decrease; slot 0 is the
"empty" sentinel). -/
def monSizesOk (p : GmonParam) : Prop :=
  (∃ lo hi : Nat, lo < hi ∧
      p.lowpc = ROUNDDOWN lo (HISTFRACTION * 2) ∧
      p.highpc = ROUNDUP hi (HISTFRACTION * 2)) ∧
  p.textsize = p.highpc - p.lowpc ∧
  p.kcountsize = p.textsize / HISTFRACTION ∧
  p.hashfraction = HASHFRACTION ∧
  p.fromssize = p.textsize / HASHFRACTION ∧
  p.kcount.length = p.kcountsize / 2 ∧
  p.froms.length = p.fromssize / 2 ∧
  1 ≤ p.tos.length ∧
  (∀ i, 1 ≤ i → (p.tos.getD i dTo).link < i)

/-- Field check of claim C2's reading of the KCOUNT grammar: exactly the
code's per-field error conditions (length other than 4, or a byte outside
the ASCII range `'0'`..`'f'`). -/
def badF (p : List Char) : Bool :=
  decide (p.length ≠ 4) || p.any (fun c => decide (c.toNat < 48) || decide (102 < c.toNat))

/-- Hexadecimal digit in the sense of the specification's wire format:
`0`-`9` or lowercase `a`-`f`. -/
def isClaimHexDigit (c : Char) : Bool :=
  (48 ≤ c.toNat && c.toNat ≤ 57) || (97 ≤ c.toNat && c.toNat ≤ 102)

/-- Concrete session used to exercise the pipeline: histogram sample
value 10 (wire field `000a`), no recorded arcs. -/
def pEx : GmonParam :=
  { lowpc := 0, highpc := 4, textsize := 4, kcountsize := 2, hashfraction := 2,
    fromssize := 2, kcount := [10], froms := [0], tos := [dTo] }

/-- Concrete session with one recorded arc in from-slot 0. -/
def pW : GmonParam :=
  { lowpc := 0, highpc := 4, textsize := 4, kcountsize := 2, hashfraction := 2,
    fromssize := 2, kcount := [10], froms := [1], tos := [dTo, ⟨512, 7, 0⟩] }

theorem splitSp_ne_nil (l : List Char) : splitSp l ≠ [] := by
  induction l with
  | nil => simp [splitSp]
  | cons c r ih =>
    simp only [splitSp]
    by_cases hc : c = ' '
    · simp [hc]
    · simp only [if_neg hc]
      cases h : splitSp r with
      | nil => simp
      | cons t ts => simp

theorem splitSp_append (l1 l2 : List Char) (h : ∀ c ∈ l1, c ≠ ' ') :
    splitSp (l1 ++ ' ' :: l2) = l1 :: splitSp l2 := by
  induction l1 with
  | nil => simp [splitSp]
  | cons c r ih =>
    have hc : c ≠ ' ' := h c (by simp)
    have ih2 := ih (fun x hx => h x (by simp [hx]))
    simp only [List.cons_append, splitSp, if_neg hc]
    rw [show r.append (' ' :: l2) = r ++ ' ' :: l2 from rfl, ih2]

theorem splitSp_nospace (l : List Char) (h : ∀ c ∈ l, c ≠ ' ') : splitSp l = [l] := by
  induction l with
  | nil => simp [splitSp]
  | cons c r ih =>
    have hc : c ≠ ' ' := h c (by simp)
    have ih2 := ih (fun x hx => h x (by simp [hx]))
    simp [splitSp, if_neg hc, ih2]

theorem decodeSampleLoop_bad (p : List Char) :
    ∀ s, (∃ c ∈ p, c.toNat < 48 ∨ 102 < c.toNat) → decodeSampleLoop s p = none := by
  induction p with
  | nil => intro s h; simp at h
  | cons c r ih =>
    intro s h
    simp only [decodeSampleLoop]
    by_cases hb : c.toNat < 48 ∨ 102 < c.toNat
    · simp [hb]
    · rcases h with ⟨d, hd, hbd⟩
      rcases List.mem_cons.mp hd with rfl | hdr
      · exact absurd hbd hb
      · simp only [if_neg hb]
        exact ih _ ⟨d, hdr, hbd⟩

theorem decodeSampleLoop_good (p : List Char) :
    ∀ s, (∀ c ∈ p, ¬(c.toNat < 48 ∨ 102 < c.toNat)) →
      ∃ v, decodeSampleLoop s p = some v := by
  induction p with
  | nil => intro s _; exact ⟨s, rfl⟩
  | cons c r ih =>
    intro s h
    have hb : ¬(c.toNat < 48 ∨ 102 < c.toNat) := h c (by simp)
    simp only [decodeSampleLoop, if_neg hb]
    exact ih _ (fun x hx => h x (by simp [hx]))

theorem kcountFieldsLoop_bad_head (total count : Nat) (acc : List OutItem)
    (p : List Char) (rest : List (List Char)) (hbp : badF p = true) :
    kcountFieldsLoop total count acc (p :: rest) = (GState.ERROR, count, acc) := by
  simp only [kcountFieldsLoop]
  by_cases h4 : p.length ≠ 4
  · simp [h4]
  · simp only [if_neg h4]
    by_cases hct : count = total
    · simp [hct]
    · simp only [if_neg hct]
      have hbad : ∃ c ∈ p, c.toNat < 48 ∨ 102 < c.toNat := by
        have h1 := hbp
        simp only [badF, Bool.or_eq_true, decide_eq_true_eq, List.any_eq_true] at h1
        rcases h1 with h1 | ⟨c, hc, hb⟩
        · exact absurd h1 h4
        · refine ⟨c, hc, ?_⟩
          simpa using hb
      have hn : decodeSample p = none := decodeSampleLoop_bad p 0 hbad
      simp [decodeSample] at hn
      simp [decodeSample, hn]

theorem kcountFieldsLoop_overflow (total count : Nat) (acc : List OutItem)
    (p : List Char) (rest : List (List Char)) (h4 : p.length = 4) (hct : count = total) :
    kcountFieldsLoop total count acc (p :: rest) = (GState.ERROR, count, acc) := by
  simp [kcountFieldsLoop, h4, hct]

theorem kcountFieldsLoop_state (total : Nat) :
    ∀ (flds : List (List Char)) (count : Nat) (acc : List OutItem),
      (kcountFieldsLoop total count acc flds).1 = GState.KCOUNT ∨
        (kcountFieldsLoop total count acc flds).1 = GState.ERROR := by
  intro flds
  induction flds with
  | nil => intro count acc; left; rfl
  | cons p rest ih =>
    intro count acc
    simp only [kcountFieldsLoop]
    by_cases h4 : p.length ≠ 4
    · right; simp [h4]
    · simp only [if_neg h4]
      by_cases hct : count = total
      · right; simp [hct]
      · simp only [if_neg hct]
        cases hd : decodeSample p with
        | none => right; rfl
        | some v => exact ih _ _

theorem kcountFieldsLoop_budget (total : Nat) :
    ∀ (fields : List (List Char)) (count : Nat) (acc : List OutItem),
      count ≤ total → total - count < fields.length →
      (∀ f ∈ fields.take (total - count + 1), f.length = 4) →
      (kcountFieldsLoop total count acc fields).1 = GState.ERROR := by
  intro fields
  induction fields with
  | nil => intro count acc h1 h2 _; simp at h2
  | cons p rest ih =>
    intro count acc hle hlen h4
    have hp4 : p.length = 4 := by
      apply h4 p
      rw [List.take_succ_cons]
      exact List.mem_cons_self _ _
    simp only [kcountFieldsLoop, hp4]
    by_cases hct : count = total
    · simp [hct]
    · have hclt : count < total := by omega
      cases hd : decodeSample p with
      | none => simp [hd, hct]
      | some v =>
        simp only [if_neg hct, hd, ne_eq, not_true_eq_false, if_false, reduceIte]
        apply ih (count + 1) (acc ++ [OutItem.sample v]) (by omega)
          (by simp only [List.length_cons] at hlen; omega)
        intro f hf
        have harith : total - (count + 1) + 1 = total - count := by omega
        rw [harith] at hf
        apply h4 f
        rw [List.take_succ_cons]
        exact List.mem_cons_of_mem _ hf

theorem kcountFieldsLoop_badField (total : Nat) :
    ∀ (flds : List (List Char)) (count : Nat) (acc : List OutItem),
      flds.any badF = true →
        (kcountFieldsLoop total count acc flds).1 = GState.ERROR ∧
          (kcountFieldsLoop total count acc flds).2.2.length ≤
            acc.length + flds.findIdx badF := by
  intro flds
  induction flds with
  | nil => intro count acc h; simp at h
  | cons p rest ih =>
    intro count acc h
    by_cases hbp : badF p = true
    · rw [kcountFieldsLoop_bad_head total count acc p rest hbp]
      simp
    · have hbf : badF p = false := by simpa using hbp
      have hrest : rest.any badF = true := by
        simp only [List.any_cons, Bool.or_eq_true] at h
        rcases h with h | h
        · exact absurd h hbp
        · exact h
      have hparts : p.length = 4 ∧ ∀ c ∈ p, ¬(c.toNat < 48 ∨ 102 < c.toNat) := by
        have hbf2 := hbf
        simp only [badF, Bool.or_eq_false_iff, decide_eq_false_iff_not, not_not,
          List.any_eq_false] at hbf2
        refine ⟨hbf2.1, fun c hc => ?_⟩
        have h2 := hbf2.2 c hc
        simp only [Bool.or_eq_true, decide_eq_true_eq, not_or] at h2
        exact fun hor => hor.elim h2.1 h2.2
      have hidx : (p :: rest).findIdx badF = rest.findIdx badF + 1 := by
        simp [List.findIdx_cons, hbf]
      rw [hidx]
      simp only [kcountFieldsLoop, hparts.1]
      by_cases hct : count = total
      · simp [hct]
      · obtain ⟨v, hv⟩ := decodeSampleLoop_good p 0 hparts.2
        have hv' : decodeSample p = some v := hv
        simp only [if_neg hct, hv', ne_eq, not_true_eq_false, if_false,
          reduceIte]
        have hih := ih (count + 1) (acc ++ [OutItem.sample v]) hrest
        refine ⟨hih.1, ?_⟩
        have h2 := hih.2
        simp only [List.length_append, List.length_singleton] at h2
        omega

/-- C1: the round-trip law fails on the code.  For the concrete session
`pEx`, whose histogram holds the single sample value 10 (hex `000a`), the
finalizer's record sequence is accepted by the deserializer without any
`ERROR` transition, but the reconstructed sample is 49, not 10: the KCOUNT
decode loop computes `sample * 16 + (*p - '0')` for every character, so
the letter digit `a` (ASCII 97) contributes 49 instead of 10.  The third
and fourth conjuncts isolate the defect: `%04hx` renders 10 as `000a`, and
the deserializer's own decode maps `000a` back to 49. -/
theorem C1_roundtrip_failure :
    ktrace_extract (mcleanupRecords pEx 0) =
        ExtractResult.success [OutItem.header 0 4 42 333945 0, OutItem.sample 49]
      ∧ pEx.kcount = [10]
      ∧ toHex4 10 = ['0', '0', '0', 'a']
      ∧ decodeSample (toHex4 10) = some 49
      ∧ (49 : Nat) ≠ 10 := by
  decide

/-- C2 counterexample: the record `kcount :000` carries a field whose
first character `:` is not a hexadecimal digit, yet from a KCOUNT cursor
expecting one more sample the deserializer does not go to `ERROR`: the
code's range check `*p < '0' || 'f' < *p` admits every ASCII byte between
`'0'` and `'f'`, so the field is decoded (to 40960) and appended, and the
cursor advances to RAWARC. -/
theorem C2_counterexample :
    (gmon_append ⟨0, 1, GState.KCOUNT⟩ ("kcount :000".data)).1.state = GState.RAWARC
      ∧ (gmon_append ⟨0, 1, GState.KCOUNT⟩ ("kcount :000".data)).2 =
          [OutItem.sample 40960]
      ∧ isClaimHexDigit ':' = false
      ∧ (":000".data).length = 4 := by
  decide

/-- C2 (amended): in deserializer state KCOUNT, for every input record
beginning with the `kcount` tag, if any space-separated field has length
different from 4 or contains a byte outside the ASCII range `'0'`..`'f'`
(the range the code's check `*p < '0' || 'f' < *p` enforces — not the set
of hexadecimal digits the claim names), then `gmon_append` sets the cursor
state to `ERROR`, and no sample from the offending field onward is
appended. -/
theorem C2_kcount_field_check (de : GmonDe) (tr : List Char)
    (hst : de.state = GState.KCOUNT)
    (htag : (splitSp tr).head? = some kcountTag)
    (hbad : ((splitSp tr).tail).any badF = true) :
    (gmon_append de tr).1.state = GState.ERROR ∧
      (gmon_append de tr).2.length ≤ ((splitSp tr).tail).findIdx badF := by
  obtain ⟨c0, t0, st⟩ := de
  simp only at hst
  subst hst
  cases h : splitSp tr with
  | nil => exact absurd h (splitSp_ne_nil tr)
  | cons tag fields =>
    rw [h] at htag
    simp only [List.head?_cons, Option.some.injEq] at htag
    subst htag
    rw [h] at hbad
    simp only [List.tail_cons] at hbad
    obtain ⟨hE, hlen⟩ := kcountFieldsLoop_badField t0 fields c0 [] hbad
    simp only [gmon_append, h, if_pos rfl, hE]
    simp only [List.length_nil, Nat.zero_add] at hlen
    simp [h, hE, hlen]

theorem C2_kcount_field_check_witness :
    (gmon_append ⟨0, 1, GState.KCOUNT⟩ ("kcount 00000".data)).1.state = GState.ERROR ∧
      (gmon_append ⟨0, 1, GState.KCOUNT⟩ ("kcount 00000".data)).2.length ≤
        ((splitSp ("kcount 00000".data)).tail).findIdx badF :=
  C2_kcount_field_check ⟨0, 1, GState.KCOUNT⟩ ("kcount 00000".data) rfl
    (by decide) (by decide)

/-- C3: the exact sample-count rule of the KCOUNT state.  (i) A `kcount`
record that would carry the cursor past `sample_total` drives it to
`ERROR`: whenever `sample_count ≤ sample_total` and the record holds more
fields than the remaining budget `sample_total - sample_count`, the
length-4 fields up to and including the first over-budget one make the
code error with "found more than %zu samples" — this covers the
(T+1)-th well-formed sample field wherever it falls inside a record,
e.g. `sample_total = 1` against the single record `kcount 0000 0000`.
(ii) While `sample_count < sample_total`, a `rawarc` record or the footer
record drives the cursor to `ERROR` (their tag fails the `kcount`
comparison).  (iii) A KCOUNT step ends in state `RAWARC` exactly when it
did not error and the new sample count equals `sample_total`. -/
theorem C3_exact_sample_count (de : GmonDe) (hst : de.state = GState.KCOUNT) :
    (∀ tr fields, de.sample_count ≤ de.sample_total →
        splitSp tr = kcountTag :: fields →
        de.sample_total - de.sample_count < fields.length →
        (∀ f ∈ fields.take (de.sample_total - de.sample_count + 1), f.length = 4) →
        (gmon_append de tr).1.state = GState.ERROR)
  ∧ (de.sample_count < de.sample_total →
      (∀ a b c, (gmon_append de (rawarcRecord a b c)).1.state = GState.ERROR)
      ∧ (gmon_append de footerRecord).1.state = GState.ERROR)
  ∧ (∀ tr, (gmon_append de tr).1.state = GState.RAWARC ↔
      ((gmon_append de tr).1.state ≠ GState.ERROR ∧
        (gmon_append de tr).1.sample_count = (gmon_append de tr).1.sample_total)) := by
  obtain ⟨c0, t0, st⟩ := de
  simp only at hst
  subst hst
  refine ⟨?_, ?_, ?_⟩
  · intro tr fields hle hsp hlen h4
    simp only at hle hlen h4
    have hloop := kcountFieldsLoop_budget t0 fields c0 [] hle hlen h4
    simp [gmon_append, hsp, hloop]
  · intro _
    constructor
    · intro a b c
      have he : rawarcRecord a b c =
          rawarcTag ++ ' ' ::
            (toHex (a % 2 ^ 64) ++ hexFields [b % 2 ^ 64, c % 2 ^ 64]) := rfl
      have hsp := splitSp_append rawarcTag
        (toHex (a % 2 ^ 64) ++ hexFields [b % 2 ^ 64, c % 2 ^ 64]) (by decide)
      rw [he] at *
      simp only [gmon_append, hsp]
      rw [if_neg (by decide)]
    · have hsp : splitSp footerRecord = [footerRecord] :=
        splitSp_nospace _ (by decide)
      simp only [gmon_append, hsp]
      rw [if_neg (by decide)]
  · intro tr
    cases h : splitSp tr with
    | nil => simp [gmon_append, h]
    | cons tag fields =>
      by_cases htag : tag = kcountTag
      · subst htag
        rcases kcountFieldsLoop_state t0 fields c0 [] with hK | hE
        · by_cases hc : (kcountFieldsLoop t0 c0 [] fields).2.1 = t0
          · simp [gmon_append, h, hK, hc]
          · simp [gmon_append, h, hK, hc]
        · simp [gmon_append, h, hE]
      · simp [gmon_append, h, htag]

theorem C3_exact_sample_count_witness :
    (gmon_append ⟨0, 1, GState.KCOUNT⟩ ("kcount 0000 0000".data)).1.state =
        GState.ERROR ∧
      (gmon_append ⟨1, 1, GState.KCOUNT⟩ ("kcount 0000".data)).1.state = GState.ERROR ∧
      (gmon_append ⟨0, 1, GState.KCOUNT⟩ (rawarcRecord 1 2 3)).1.state = GState.ERROR :=
  ⟨(C3_exact_sample_count ⟨0, 1, GState.KCOUNT⟩ rfl).1 ("kcount 0000 0000".data)
      ["0000".data, "0000".data] (by decide) (by decide) (by decide) (by decide),
    (C3_exact_sample_count ⟨1, 1, GState.KCOUNT⟩ rfl).1 ("kcount 0000".data)
      ["0000".data] (by decide) (by decide) (by decide) (by decide),
    ((C3_exact_sample_count ⟨0, 1, GState.KCOUNT⟩ rfl).2.1 (by decide)).1 1 2 3⟩

/-- C7: truncation is distinguished from corruption.  If the record
stream is exhausted with the cursor past HEADER but in neither FOOTER nor
ERROR, `ktrace_extract` reports the incomplete-record-set outcome, which
is a different outcome than the malformed-record (`ERROR`) one; and the
reconstruction succeeds exactly when the cursor reached FOOTER. -/
theorem C7_truncation_distinct (records : List (List Char)) :
    ((finalDe records).state ≠ GState.FOOTER →
      (finalDe records).state ≠ GState.ERROR →
      (finalDe records).state ≠ GState.HEADER →
      ktrace_extract records = ExtractResult.incomplete)
  ∧ ExtractResult.incomplete ≠ ExtractResult.malformed
  ∧ ((∃ out, ktrace_extract records = ExtractResult.success out) ↔
      (finalDe records).state = GState.FOOTER) := by
  refine ⟨?_, by decide, ?_⟩
  · intro h1 h2 h3
    simp [ktrace_extract, h1, h2, h3]
  · cases hs : (finalDe records).state <;> simp [ktrace_extract, hs]

theorem C7_truncation_distinct_witness :
    ktrace_extract ["gmonhdr 0 0 28 0 0".data, "kcount".data] =
      ExtractResult.incomplete :=
  (C7_truncation_distinct ["gmonhdr 0 0 28 0 0".data, "kcount".data]).1
    (by decide) (by decide) (by decide)

theorem hex_toNat_lb (c : Char) (h : isHexDigitChar c = true) : 48 ≤ c.toNat := by
  simp only [isHexDigitChar, Bool.or_eq_true, Bool.and_eq_true, decide_eq_true_eq] at h
  omega

theorem hex_not_space (c : Char) (h : isHexDigitChar c = true) : isSpaceC c = false := by
  have := hex_toNat_lb c h
  simp only [isSpaceC, Bool.or_eq_false_iff, decide_eq_false_iff_not]
  omega

theorem hex_ne (c : Char) (h : isHexDigitChar c = true) :
    c ≠ '-' ∧ c ≠ '+' ∧ c ≠ 'x' ∧ c ≠ 'X' ∧ c ≠ ' ' := by
  simp only [isHexDigitChar, Bool.or_eq_true, Bool.and_eq_true, decide_eq_true_eq] at h
  refine ⟨?_, ?_, ?_, ?_, ?_⟩ <;> intro hc <;> subst hc <;> exact absurd h (by decide)

theorem hexDigitChar_hex : ∀ d < 16, isHexDigitChar (hexDigitChar d) = true := by decide

theorem hexDigitChar_val : ∀ d < 16, hexVal (hexDigitChar d) = d := by decide

theorem toHexCore_hex : ∀ f n c, c ∈ toHexCore f n → isHexDigitChar c = true := by
  intro f
  induction f with
  | zero => intro n c hc; simp [toHexCore] at hc
  | succ f ih =>
    intro n c hc
    simp only [toHexCore] at hc
    by_cases hn : n = 0
    · simp [hn] at hc
    · rw [if_neg hn] at hc
      rcases List.mem_append.mp hc with h1 | h1
      · exact ih _ _ h1
      · simp only [List.mem_singleton] at h1
        subst h1
        exact hexDigitChar_hex _ (Nat.mod_lt _ (by norm_num))

theorem toHex_hex (n : Nat) : ∀ c ∈ toHex n, isHexDigitChar c = true := by
  intro c hc
  unfold toHex at hc
  by_cases hn : n = 0
  · rw [if_pos hn] at hc
    simp only [List.mem_singleton] at hc
    subst hc; decide
  · rw [if_neg hn] at hc
    exact toHexCore_hex n n c hc

theorem toHex_ne_nil (n : Nat) : toHex n ≠ [] := by
  unfold toHex
  by_cases hn : n = 0
  · simp [hn]
  · rw [if_neg hn]
    obtain ⟨f, rfl⟩ : ∃ f, n = f + 1 := ⟨n - 1, by omega⟩
    simp [toHexCore, hn]

theorem hexListVal_append_digit (xs : List Char) (c : Char) :
    hexListVal (xs ++ [c]) = hexListVal xs * 16 + hexVal c := by
  simp [hexListVal, List.foldl_append]

theorem toHexCore_val : ∀ f n, n < 16 ^ f → hexListVal (toHexCore f n) = n := by
  intro f
  induction f with
  | zero =>
    intro n h
    simp only [pow_zero, Nat.lt_one_iff] at h
    subst h
    rfl
  | succ f ih =>
    intro n h
    by_cases hn : n = 0
    · subst hn; rfl
    · simp only [toHexCore, if_neg hn]
      rw [hexListVal_append_digit]
      have hdiv : n / 16 < 16 ^ f := by
        rw [Nat.div_lt_iff_lt_mul (by norm_num)]
        calc n < 16 ^ (f + 1) := h
        _ = 16 ^ f * 16 := by ring
      rw [ih _ hdiv, hexDigitChar_val _ (Nat.mod_lt _ (by norm_num))]
      omega

theorem toHex_val (n : Nat) : hexListVal (toHex n) = n := by
  unfold toHex
  by_cases hn : n = 0
  · rw [if_pos hn, hn]; decide
  · rw [if_neg hn]
    exact toHexCore_val n n
      (lt_of_lt_of_le (Nat.lt_two_pow n) (Nat.pow_le_pow_left (by norm_num) n))

theorem toHexCore_len : ∀ f n k, n < 16 ^ k → (toHexCore f n).length ≤ k := by
  intro f
  induction f with
  | zero => intro n k _; simp [toHexCore]
  | succ f ih =>
    intro n k h
    by_cases hn : n = 0
    · simp [toHexCore, hn]
    · simp only [toHexCore, if_neg hn, List.length_append, List.length_singleton]
      have hk : 1 ≤ k := by
        rcases Nat.eq_zero_or_pos k with rfl | hk
        · simp only [pow_zero, Nat.lt_one_iff] at h
          exact absurd h hn
        · exact hk
      have hdiv : n / 16 < 16 ^ (k - 1) := by
        rw [Nat.div_lt_iff_lt_mul (by norm_num)]
        have hpow : 16 ^ (k - 1) * 16 = 16 ^ k := by
          rw [← pow_succ]
          congr 1
          omega
        omega
      have := ih (n / 16) (k - 1) hdiv
      omega

theorem toHex_len (n k : Nat) (h : n < 16 ^ k) (hk : 1 ≤ k) : (toHex n).length ≤ k := by
  unfold toHex
  by_cases hn : n = 0
  · simp [hn, hk]
  · rw [if_neg hn]
    exact toHexCore_len n n k h

theorem dropWS_space (l : List Char) : dropWS (' ' :: l) = dropWS l := by
  simp [dropWS, isSpaceC]

theorem dropWS_nospace (c : Char) (l : List Char) (h : isSpaceC c = false) :
    dropWS (c :: l) = c :: l := by
  simp [dropWS, h]

theorem spanHex_exact (ds r : List Char) (hds : ∀ c ∈ ds, isHexDigitChar c = true)
    (hr : ∀ c, r.head? = some c → isHexDigitChar c = false) :
    spanHex (ds ++ r) = (ds, r) := by
  induction ds with
  | nil =>
    cases r with
    | nil => rfl
    | cons c t =>
      have := hr c rfl
      simp [spanHex, this]
  | cons c t ih =>
    have hc := hds c (by simp)
    have ih2 := ih (fun x hx => hds x (by simp [hx]))
    simp [spanHex, hc, ih2]

theorem scanSign_hexhead (c : Char) (r : List Char) (h : isHexDigitChar c = true) :
    scanSign (c :: r) = (false, c :: r) := by
  obtain ⟨hm, hp, _, _, _⟩ := hex_ne c h
  simp [scanSign, hm, hp]

theorem scanPre_snd_not_x (c0 c1 : Char) (l : List Char) (h1 : c1 ≠ 'x') (h2 : c1 ≠ 'X') :
    scanPre (c0 :: c1 :: l) = c0 :: c1 :: l := by
  cases l with
  | nil => rfl
  | cons c2 t => simp [scanPre, h1, h2]

theorem matchChars_append (p l : List Char) : matchChars p (p ++ l) = some l := by
  induction p with
  | nil => rfl
  | cons c t ih => simp [matchChars, ih]

theorem matchChars_some (p : List Char) : ∀ l r, matchChars p l = some r → l = p ++ r := by
  induction p with
  | nil =>
    intro l r h
    simp only [matchChars, Option.some.injEq] at h
    simp [h]
  | cons c t ih =>
    intro l r h
    cases l with
    | nil => simp [matchChars] at h
    | cons c1 l1 =>
      simp only [matchChars] at h
      by_cases hc : c1 = c
      · rw [if_pos hc] at h
        have := ih l1 r h
        simp [hc, this]
      · rw [if_neg hc] at h
        exact absurd h (by simp)

theorem matchChars_none_of_take (p l : List Char) (h : l.take p.length ≠ p) :
    matchChars p l = none := by
  cases hm : matchChars p l with
  | none => rfl
  | some r =>
    have he := matchChars_some p l r hm
    subst he
    exact absurd (List.take_left p r) h

theorem scanHexNat_field (m : Nat) (ds r : List Char) (hne : ds ≠ [])
    (hds : ∀ c ∈ ds, isHexDigitChar c = true)
    (hr : r = [] ∨ ∃ t, r = ' ' :: t) :
    scanHexNat m (' ' :: (ds ++ r)) = some (hexListVal ds % m, r) := by
  obtain ⟨c0, ds0, rfl⟩ : ∃ c0 ds0, ds = c0 :: ds0 := by
    cases ds with
    | nil => exact absurd rfl hne
    | cons x xs => exact ⟨x, xs, rfl⟩
  have hc0 := hds c0 (by simp)
  have hnospace := hex_not_space c0 hc0
  have hsign : scanSign (dropWS (' ' :: ((c0 :: ds0) ++ r))) = (false, c0 :: (ds0 ++ r)) := by
    rw [dropWS_space, List.cons_append, dropWS_nospace c0 _ hnospace,
      scanSign_hexhead c0 _ hc0]
  have hpre : scanPre (c0 :: (ds0 ++ r)) = c0 :: (ds0 ++ r) := by
    cases ds0 with
    | nil =>
      rcases hr with rfl | ⟨t, rfl⟩
      · rfl
      · cases t with
        | nil => rfl
        | cons c2 t2 => exact scanPre_snd_not_x c0 ' ' _ (by decide) (by decide)
    | cons d1 ds1 =>
      have hd1 := hds d1 (by simp)
      obtain ⟨_, _, hx1, hX1, _⟩ := hex_ne d1 hd1
      exact scanPre_snd_not_x c0 d1 _ hx1 hX1
  have hspan : spanHex ((c0 :: ds0) ++ r) = (c0 :: ds0, r) := by
    apply spanHex_exact _ _ hds
    intro c hc
    rcases hr with rfl | ⟨t, rfl⟩
    · simp at hc
    · simp only [List.head?_cons, Option.some.injEq] at hc
      subst hc
      decide
  rw [List.cons_append] at hspan
  rw [List.cons_append] at hsign
  simp [scanHexNat, hsign, hpre, hspan]

theorem scanGmonhdr_wire (a b v d e : Nat) (ha : a < 2 ^ 64) (hb : b < 2 ^ 64)
    (hv : v < 2 ^ 32) (hd : d < 2 ^ 32) (he : e < 2 ^ 32) :
    scanGmonhdr (hdrWire a b v d e) = some (a, b, v, d, e) := by
  have h1 : hdrWire a b v d e =
      hdrTag ++ (' ' :: (toHex a ++ (' ' :: (toHex b ++ (' ' :: (toHex v ++
        (' ' :: (toHex d ++ (' ' :: (toHex e ++ ([] : List Char))))))))))) := rfl
  have e1 := scanHexNat_field (2 ^ 64) (toHex a)
    (' ' :: (toHex b ++ (' ' :: (toHex v ++ (' ' :: (toHex d ++
      (' ' :: (toHex e ++ ([] : List Char)))))))))
    (toHex_ne_nil a) (toHex_hex a) (Or.inr ⟨_, rfl⟩)
  have e2 := scanHexNat_field (2 ^ 64) (toHex b)
    (' ' :: (toHex v ++ (' ' :: (toHex d ++ (' ' :: (toHex e ++ ([] : List Char)))))))
    (toHex_ne_nil b) (toHex_hex b) (Or.inr ⟨_, rfl⟩)
  have e3 := scanHexNat_field (2 ^ 32) (toHex v)
    (' ' :: (toHex d ++ (' ' :: (toHex e ++ ([] : List Char)))))
    (toHex_ne_nil v) (toHex_hex v) (Or.inr ⟨_, rfl⟩)
  have e4 := scanHexNat_field (2 ^ 32) (toHex d)
    (' ' :: (toHex e ++ ([] : List Char)))
    (toHex_ne_nil d) (toHex_hex d) (Or.inr ⟨_, rfl⟩)
  have e5 := scanHexNat_field (2 ^ 32) (toHex e) ([] : List Char)
    (toHex_ne_nil e) (toHex_hex e) (Or.inl rfl)
  rw [toHex_val, Nat.mod_eq_of_lt ha] at e1
  rw [toHex_val, Nat.mod_eq_of_lt hb] at e2
  rw [toHex_val, Nat.mod_eq_of_lt hv] at e3
  rw [toHex_val, Nat.mod_eq_of_lt hd] at e4
  rw [toHex_val, Nat.mod_eq_of_lt he] at e5
  rw [h1]
  simp only [scanGmonhdr, matchChars_append, e1, e2, e3, e4, e5]

theorem gmon_append_header_accept (de : GmonDe) (hst : de.state = GState.HEADER)
    (a b v d e : Nat) (ha : a < 2 ^ 64) (hb : b < 2 ^ 64) (hv : v < 2 ^ 31)
    (hd : d < 2 ^ 32) (he : e < 2 ^ 32) (h40 : gmonhdrSize ≤ v) :
    gmon_append de (hdrWire a b v d e) =
      (⟨0, (v - gmonhdrSize) / 2, GState.KCOUNT⟩, [OutItem.header a b v d e]) := by
  obtain ⟨c0, t0, st⟩ := de
  simp only at hst
  subst hst
  have hs := scanGmonhdr_wire a b v d e ha hb (lt_trans hv (by norm_num)) hd he
  have hncnt : ncntEff v = v := by unfold ncntEff; rw [if_pos hv]
  simp only [gmon_append, hs, hncnt]
  rw [if_neg (by omega)]

theorem gmon_append_header_reject (de : GmonDe) (hst : de.state = GState.HEADER)
    (tr : List Char) (h : tr.take 7 ≠ hdrTag) :
    (gmon_append de tr).1.state = GState.ERROR := by
  obtain ⟨c0, t0, st⟩ := de
  simp only at hst
  subst hst
  have hm : matchChars hdrTag tr = none :=
    matchChars_none_of_take hdrTag tr (by rw [show hdrTag.length = 7 from rfl]; exact h)
  simp [gmon_append, scanGmonhdr, hm]

/-- C9 counterexample: the header wire tag is `gmonhdr`, not `header`.
A record carrying the literal tag `header` followed by five well-formed
hexadecimal fields is rejected (state `ERROR`) by the deserializer in
state HEADER, and the record the finalizer actually emits starts with
`gmonhdr`, not `header`. -/
theorem C9_counterexample :
    (gmon_append initDe ("header 1 2 28 0 0".data)).1.state = GState.ERROR
      ∧ (headerRecord pEx 0).take 6 ≠ "header".data
      ∧ (headerRecord pEx 0).take 7 = "gmonhdr".data := by
  decide

/-- C9 (amended): the single header record consists of the literal tag
`gmonhdr` (not `header`) followed by the five space-separated lowercase
hexadecimal fields `low_pc`, `high_pc`, `declared_size`, `version`,
`sample_rate`; the deserializer in state HEADER accepts every record of
that form whose `declared_size` field is at least the header size (and
below `2 ^ 31`), reconstructing exactly those field values, and drives the
cursor to `ERROR` on any record that does not begin with `gmonhdr`. -/
theorem C9_header_tag (p : GmonParam) (rate : Nat) (de : GmonDe) (tr : List Char)
    (a b v d e : Nat) (hst : de.state = GState.HEADER) :
    (headerRecord p rate = hdrWire (p.lowpc % 2 ^ 64) (p.highpc % 2 ^ 64)
        ((p.kcountsize + gmonhdrSize) % 2 ^ 32) GMONVERSION (rate % 2 ^ 32)
      ∧ (headerRecord p rate).take 8 = "gmonhdr ".data)
  ∧ (a < 2 ^ 64 → b < 2 ^ 64 → v < 2 ^ 31 → d < 2 ^ 32 → e < 2 ^ 32 → gmonhdrSize ≤ v →
      gmon_append de (hdrWire a b v d e) =
        (⟨0, (v - gmonhdrSize) / 2, GState.KCOUNT⟩, [OutItem.header a b v d e]))
  ∧ (tr.take 7 ≠ hdrTag → (gmon_append de tr).1.state = GState.ERROR) := by
  refine ⟨⟨rfl, rfl⟩, ?_, ?_⟩
  · intro ha hb hv hd he h40
    exact gmon_append_header_accept de hst a b v d e ha hb hv hd he h40
  · intro h
    exact gmon_append_header_reject de hst tr h

theorem C9_header_tag_witness :
    gmon_append initDe (hdrWire 1 2 40 0 0) =
        (⟨0, 0, GState.KCOUNT⟩, [OutItem.header 1 2 40 0 0])
      ∧ (gmon_append initDe ("header 1 2 28 0 0".data)).1.state = GState.ERROR :=
  ⟨(C9_header_tag pEx 0 initDe ("header 1 2 28 0 0".data) 1 2 40 0 0 rfl).2.1
      (by decide) (by decide) (by decide) (by decide) (by decide) (by decide),
    (C9_header_tag pEx 0 initDe ("header 1 2 28 0 0".data) 1 2 40 0 0 rfl).2.2
      (by decide)⟩

/-- C10: in state HEADER the deserializer rejects any header record whose
declared byte count `ncnt` is below the on-disk header size (40 bytes),
writing nothing, so `sample_total = (ncnt - header_size) / 2` is never
computed from a negative difference; a record with `ncnt` equal to the
header size is accepted and yields `sample_total = 0`. -/
theorem C10_ncnt_guard (de : GmonDe) (a b v d e : Nat) (hst : de.state = GState.HEADER)
    (ha : a < 2 ^ 64) (hb : b < 2 ^ 64) (hv : v < 2 ^ 31) (hd : d < 2 ^ 32)
    (he : e < 2 ^ 32) :
    (v < gmonhdrSize →
      (gmon_append de (hdrWire a b v d e)).1.state = GState.ERROR ∧
        (gmon_append de (hdrWire a b v d e)).2 = [])
  ∧ (v = gmonhdrSize →
      gmon_append de (hdrWire a b v d e) =
        (⟨0, 0, GState.KCOUNT⟩, [OutItem.header a b v d e])) := by
  constructor
  · intro hsmall
    obtain ⟨c0, t0, st⟩ := de
    simp only at hst
    subst hst
    have hs := scanGmonhdr_wire a b v d e ha hb (lt_trans hv (by norm_num)) hd he
    have hn : ncntEff v = v := by unfold ncntEff; rw [if_pos hv]
    simp [gmon_append, hs, hn, hsmall]
  · intro hveq
    subst hveq
    exact gmon_append_header_accept de hst a b gmonhdrSize d e ha hb hv hd he le_rfl

theorem C10_ncnt_guard_witness :
    ((gmon_append initDe (hdrWire 1 2 39 0 0)).1.state = GState.ERROR ∧
        (gmon_append initDe (hdrWire 1 2 39 0 0)).2 = [])
      ∧ gmon_append initDe (hdrWire 1 2 40 0 0) =
          (⟨0, 0, GState.KCOUNT⟩, [OutItem.header 1 2 40 0 0]) :=
  ⟨(C10_ncnt_guard initDe 1 2 39 0 0 rfl (by decide) (by decide) (by decide)
      (by decide) (by decide)).1 (by decide),
    (C10_ncnt_guard initDe 1 2 40 0 0 rfl (by decide) (by decide) (by decide)
      (by decide) (by decide)).2 rfl⟩

theorem chunkListF_join (k : Nat) (hk : 1 ≤ k) :
    ∀ (f : Nat) (l : List Nat), l.length ≤ f → (chunkListF k f l).flatten = l := by
  intro f
  induction f with
  | zero =>
    intro l h
    have hl : l = [] := List.eq_nil_of_length_eq_zero (by omega)
    subst hl
    rfl
  | succ f ih =>
    intro l h
    cases l with
    | nil => rfl
    | cons a t =>
      simp only [chunkListF, List.flatten_cons]
      rw [ih ((a :: t).drop k) (by simp only [List.length_drop]; simp at h ⊢; omega)]
      exact List.take_append_drop k (a :: t)

theorem chunkListF_mem (k : Nat) (hk : 1 ≤ k) :
    ∀ (f : Nat) (l : List Nat) (c : List Nat), l.length ≤ f → c ∈ chunkListF k f l →
      c ≠ [] ∧ c.length ≤ k := by
  intro f
  induction f with
  | zero =>
    intro l c h hm
    have hl : l = [] := List.eq_nil_of_length_eq_zero (by omega)
    subst hl
    simp [chunkListF] at hm
  | succ f ih =>
    intro l c h hm
    cases l with
    | nil => simp [chunkListF] at hm
    | cons a t =>
      simp only [chunkListF, List.mem_cons] at hm
      rcases hm with rfl | hm
      · constructor
        · cases k with
          | zero => omega
          | succ k2 => simp [List.take_cons]
        · rw [List.length_take]
          omega
      · exact ih _ _ (by simp only [List.length_drop]; simp at h ⊢; omega) hm

theorem chunkListF_ne_nil (k f : Nat) (l : List Nat) (hl : l ≠ []) :
    chunkListF k f l ≠ [] := by
  cases f with
  | zero =>
    cases l with
    | nil => exact absurd rfl hl
    | cons a t => simp [chunkListF]
  | succ f =>
    cases l with
    | nil => exact absurd rfl hl
    | cons a t => simp [chunkListF]

theorem chainArcs_fuel (tos : List ToStruct)
    (hdec : ∀ i, 1 ≤ i → (tos.getD i dTo).link < i) :
    ∀ i f1 f2, min i tos.length < f1 → min i tos.length < f2 →
      chainArcs tos f1 i = chainArcs tos f2 i := by
  intro i
  induction i using Nat.strong_induction_on with
  | _ i ih =>
    intro f1 f2 h1 h2
    cases i with
    | zero => cases f1 <;> cases f2 <;> rfl
    | succ j =>
      obtain ⟨g1, rfl⟩ : ∃ g1, f1 = g1 + 1 := ⟨f1 - 1, by omega⟩
      obtain ⟨g2, rfl⟩ : ∃ g2, f2 = g2 + 1 := ⟨f2 - 1, by omega⟩
      simp only [chainArcs]
      congr 1
      by_cases hrange : j + 1 < tos.length
      · have hm : min (j + 1) tos.length = j + 1 := Nat.min_eq_left (by omega)
        rw [hm] at h1 h2
        have hlink := hdec (j + 1) (by omega)
        have hminl : min ((tos.getD (j + 1) dTo).link) tos.length ≤
            (tos.getD (j + 1) dTo).link := Nat.min_le_left _ _
        exact ih _ (by omega) _ _ (by omega) (by omega)
      · have hd : tos.getD (j + 1) dTo = dTo := List.getD_eq_default _ _ (by omega)
        rw [hd]
        cases g1 <;> cases g2 <;> rfl

theorem chainArcs_step (tos : List ToStruct)
    (hdec : ∀ i, 1 ≤ i → (tos.getD i dTo).link < i) (hlen : 1 ≤ tos.length)
    (i : Nat) (hi : 1 ≤ i) :
    chainArcs tos (tos.length + 1) i =
      i :: chainArcs tos (tos.length + 1) ((tos.getD i dTo).link) := by
  obtain ⟨j, rfl⟩ : ∃ j, i = j + 1 := ⟨i - 1, by omega⟩
  simp only [chainArcs]
  congr 1
  apply chainArcs_fuel tos hdec
  · have hminl : min ((tos.getD (j + 1) dTo).link) tos.length ≤
        (tos.getD (j + 1) dTo).link := Nat.min_le_left _ _
    by_cases hrange : j + 1 < tos.length
    · have hlink := hdec (j + 1) (by omega)
      omega
    · have hd : tos.getD (j + 1) dTo = dTo := List.getD_eq_default _ _ (by omega)
      rw [hd]
      show min dTo.link tos.length < tos.length
      simp only [dTo]
      omega
  · exact lt_of_le_of_lt (Nat.min_le_right _ _) (by omega)

theorem sampleSeq_eq (p : GmonParam) (h : p.kcount.length = p.kcountsize / 2) :
    sampleSeq p = p.kcount := by
  unfold sampleSeq
  rw [← h]
  apply List.ext_getElem
  · simp
  · intro i h1 h2
    simp only [List.getElem_map, List.getElem_range]
    exact List.getD_eq_getElem p.kcount 0 h2

theorem monSizes_kcount_ne_nil (p : GmonParam) (h : monSizesOk p) : p.kcount ≠ [] := by
  obtain ⟨⟨lo, hi, hlt, hlow, hhigh⟩, htext, hkc, _, _, hklen, _, _, _⟩ := h
  have h4 : 4 ≤ p.textsize := by
    rw [htext, hlow, hhigh]
    unfold ROUNDDOWN ROUNDUP HISTFRACTION
    omega
  have h2 : 2 ≤ p.kcountsize := by
    rw [hkc]
    unfold HISTFRACTION
    omega
  have h1 : 1 ≤ p.kcount.length := by
    rw [hklen]
    omega
  exact List.ne_nil_of_length_pos (by omega)

theorem monSizes_kcountsize_le (p : GmonParam) (h : monSizesOk p) :
    p.kcountsize ≤ p.textsize := by
  rw [h.2.2.1]
  exact Nat.div_le_self _ _

theorem monSizes_fromssize_le (p : GmonParam) (h : monSizesOk p) :
    p.fromssize ≤ p.textsize := by
  rw [h.2.2.2.2.1]
  exact Nat.div_le_self _ _

/-- C4: the record-stream shape of `_mcleanup` when no write fails, for a
session successfully opened with `low_pc < high_pc` (and satisfying the
arc-recorder invariant).  The stream is exactly one header record, then
the `kcount` records — at least one, whose sample fields cover the whole
histogram array in order (their chunks flatten back to the array, each
chunk nonempty and within the per-record capacity) — then one `rawarc`
record per arc reachable from a non-empty from-slot (slots in ascending
index order, `caller_pc = low_pc + slot_index * hash_fraction * 2`, arcs
within a slot produced by following the `link` field from the stored
head), then exactly one footer record. -/
theorem C4_stream_shape (p : GmonParam) (rate : Nat) (h : monSizesOk p) :
    mcleanupRecords p rate =
        headerRecord p rate ::
          ((chunkListF sampleLimit p.kcount.length p.kcount).map kcountRecord ++
            (arcTraces p ++ [footerRecord]))
      ∧ (chunkListF sampleLimit p.kcount.length p.kcount).flatten = p.kcount
      ∧ (chunkListF sampleLimit p.kcount.length p.kcount).map kcountRecord ≠ []
      ∧ (∀ ch ∈ chunkListF sampleLimit p.kcount.length p.kcount,
          ch ≠ [] ∧ ch.length ≤ sampleLimit)
      ∧ arcTraces p =
          ((List.range (p.fromssize / 2)).map (fun fi =>
            if p.froms.getD fi 0 = 0 then []
            else
              (chainArcs p.tos (p.tos.length + 1) (p.froms.getD fi 0)).map (fun ti =>
                rawarcRecord (p.lowpc + fi * p.hashfraction * 2)
                  ((p.tos.getD ti dTo).selfpc) ((p.tos.getD ti dTo).count)))).flatten
      ∧ (∀ i, 1 ≤ i → chainArcs p.tos (p.tos.length + 1) i =
          i :: chainArcs p.tos (p.tos.length + 1) ((p.tos.getD i dTo).link)) := by
  obtain ⟨hex2, htext, hkc, hhash, hfrom, hklen, hflen, htlen, hdec⟩ := h
  have hok : monSizesOk p :=
    ⟨hex2, htext, hkc, hhash, hfrom, hklen, hflen, htlen, hdec⟩
  refine ⟨?_, ?_, ?_, ?_, rfl, ?_⟩
  · unfold mcleanupRecords kcountTraces
    rw [sampleSeq_eq p hklen]
  · exact chunkListF_join sampleLimit (by decide) p.kcount.length p.kcount le_rfl
  · have hne := monSizes_kcount_ne_nil p hok
    have := chunkListF_ne_nil sampleLimit p.kcount.length p.kcount hne
    simpa using this
  · intro ch hch
    exact chunkListF_mem sampleLimit (by decide) p.kcount.length p.kcount ch le_rfl hch
  · exact chainArcs_step p.tos hdec htlen

theorem C4_stream_shape_witness :
    mcleanupRecords pW 0 =
        headerRecord pW 0 ::
          ((chunkListF sampleLimit pW.kcount.length pW.kcount).map kcountRecord ++
            (arcTraces pW ++ [footerRecord]))
      ∧ (chunkListF sampleLimit pW.kcount.length pW.kcount).flatten = pW.kcount := by
  have hok : monSizesOk pW := by
    refine ⟨⟨1, 2, by decide, by decide, by decide⟩, rfl, rfl, rfl, rfl, rfl, rfl,
      by decide, ?_⟩
    intro i hi
    rcases i with _ | _ | j
    · omega
    · decide
    · have hd : pW.tos.getD (j + 2) dTo = dTo :=
        List.getD_eq_default _ _ (by show pW.tos.length ≤ j + 2; simp [pW])
      rw [hd]
      show dTo.link < j + 2
      simp only [dTo]
      omega
  exact ⟨(C4_stream_shape pW 0 hok).1, (C4_stream_shape pW 0 hok).2.1⟩

theorem toHex4_len (v : Nat) : (toHex4 v).length = 4 := by
  unfold toHex4
  rw [List.length_append, List.length_replicate]
  have hlt : v % 65536 < 16 ^ 4 :=
    lt_of_lt_of_le (Nat.mod_lt v (by norm_num)) (by norm_num)
  have h := toHex_len (v % 65536) 4 hlt (by norm_num)
  omega

theorem sampleFields_len (ch : List Nat) :
    ((ch.map (fun s => ' ' :: toHex4 s)).flatten).length = 5 * ch.length := by
  induction ch with
  | nil => rfl
  | cons s t ih =>
    simp only [List.map_cons, List.flatten_cons, List.length_append, ih,
      List.length_cons, toHex4_len]
    ring

theorem kcountRecord_len (ch : List Nat) :
    (kcountRecord ch).length = 6 + 5 * ch.length := by
  unfold kcountRecord
  rw [List.length_append, sampleFields_len]
  rfl

/-- C8: bounded record length.  With the per-record sample capacity
computed as `(sizeof ubuf - 6) / 5` where `sizeof ubuf =
KTR_USER_MAXLEN + 1`, every `kcount` record the finalizer emits (6-byte
tag plus 5 bytes per sample) is at most `KTR_USER_MAXLEN` bytes long, and
in particular its final offset stays strictly below `sizeof ubuf`, which
is the assertion `off < sizeof ubuf` of `_mcleanup`. -/
theorem C8_record_bound (samples : List Nat) (r : List Char)
    (hr : r ∈ kcountTraces samples) :
    r.length ≤ KTR_USER_MAXLEN ∧ r.length < ubufSize := by
  unfold kcountTraces at hr
  obtain ⟨ch, hch, rfl⟩ := List.mem_map.mp hr
  have hmem := chunkListF_mem sampleLimit (by decide) samples.length samples ch le_rfl hch
  rw [kcountRecord_len]
  have hle : ch.length ≤ sampleLimit := hmem.2
  unfold sampleLimit ubufSize KTR_USER_MAXLEN at *
  omega

theorem C8_record_bound_witness :
    (kcountRecord [10]).length ≤ KTR_USER_MAXLEN ∧
      (kcountRecord [10]).length < ubufSize :=
  C8_record_bound [10] (kcountRecord [10]) (by decide)
